import Mathlib

/-!
Verification of the PageRank engine (`src/pagerank.rs`, `src/errors.rs`).

Shallow embedding conventions:
* Rust `f64` arithmetic is modelled by exact rationals `ℚ`; floating-point
  drift is out of scope (the spec's properties are stated at real-number level).
* The two `HashMap<usize, usize>` fields are modelled as association lists
  (insertion at the back, so internal indices appear in first-seen order;
  a `HashMap` imposes no order, so any faithful order may be chosen).
* Rust slice indexing panics when out of bounds; a `link` call that would
  panic is modelled by the `LinkRes.oob` outcome, which aborts execution of
  a call sequence.  `f64` division never panics, so the divisions inside
  `step` are modelled by total `ℚ` division.
* The `while change > tolerance` loop of `rank` has no termination guarantee
  for arbitrary tolerances, so it is modelled with explicit fuel; `none`
  means the fuel was exhausted before the loop condition became false.
-/

/-- Association-list lookup, modelling `HashMap::get` /
the read side of the `entry` API of `key_to_index` and `index_to_key`. -/
def lookupKey (k : ℕ) : List (ℕ × ℕ) → Option ℕ
  | [] => none
  | e :: rest => if e.1 = k then some e.2 else lookupKey k rest

/-- The `Pagerank` struct of `src/pagerank.rs`. -/
structure Pagerank where
  in_links : List (List ℕ)
  number_out_links : List ℕ
  current_available_index : ℕ
  key_to_index : List (ℕ × ℕ)
  index_to_key : List (ℕ × ℕ)
  capacity : ℕ
deriving DecidableEq

/-- `Pagerank::new(capacity)`. -/
def Pagerank.new (capacity : ℕ) : Pagerank :=
  { in_links := List.replicate capacity []
    number_out_links := List.replicate capacity 0
    current_available_index := 0
    key_to_index := []
    index_to_key := []
    capacity := capacity }

/-- The message built by `format!` in `key_as_array_index`. -/
def capacityMessage (cursor cap : ℕ) : String :=
  "Exceeded the capacity of nodes, current available index: "
    ++ toString cursor ++ ", capacity: " ++ toString cap

/-- The `or_insert_with` branch of `key_as_array_index`: register a fresh
key at index `current_available_index` in both maps and advance the cursor. -/
def Pagerank.registerKey (st : Pagerank) (key : ℕ) : Pagerank :=
  { st with
    key_to_index := st.key_to_index ++ [(key, st.current_available_index)]
    index_to_key := st.index_to_key ++ [(st.current_available_index, key)]
    current_available_index := st.current_available_index + 1 }

/-- `Pagerank::key_as_array_index`. -/
def Pagerank.keyAsArrayIndex (st : Pagerank) (key : ℕ) :
    Except String (ℕ × Pagerank) :=
  if st.capacity < st.current_available_index then
    .error (capacityMessage st.current_available_index st.capacity)
  else
    match lookupKey key st.key_to_index with
    | some idx => .ok (idx, st)
    | none => .ok (st.current_available_index, st.registerKey key)

/-- `Pagerank::update_in_links`: `self.in_links[to].push(from)`; `none`
models the index-out-of-bounds panic. -/
def Pagerank.updateInLinks (st : Pagerank) (fromIdx toIdx : ℕ) :
    Option Pagerank :=
  if toIdx < st.in_links.length then
    some { st with
      in_links := st.in_links.set toIdx (st.in_links.getD toIdx [] ++ [fromIdx]) }
  else none

/-- `Pagerank::update_number_out_links`: `self.number_out_links[from] += 1`;
`none` models the index-out-of-bounds panic. -/
def Pagerank.updateNumberOutLinks (st : Pagerank) (fromIdx : ℕ) :
    Option Pagerank :=
  if fromIdx < st.number_out_links.length then
    some { st with
      number_out_links :=
        st.number_out_links.set fromIdx (st.number_out_links.getD fromIdx 0 + 1) }
  else none

/-- Outcome of one `link` call: success, recoverable `CapacityError`
(carrying the message and the state left behind), or an out-of-bounds
panic (carrying the state at the moment of the panic). -/
inductive LinkRes where
  | ok (st : Pagerank)
  | err (msg : String) (st : Pagerank)
  | oob (st : Pagerank)
deriving DecidableEq

/-- `Pagerank::link_with_indices` (in-links update first, then out-degree,
matching the statement order in the source). -/
def Pagerank.linkWithIndices (st : Pagerank) (fromIdx toIdx : ℕ) : LinkRes :=
  match st.updateInLinks fromIdx toIdx with
  | none => .oob st
  | some st1 =>
    match st1.updateNumberOutLinks fromIdx with
    | none => .oob st1
    | some st2 => .ok st2

/-- `Pagerank::link`. -/
def Pagerank.link (st : Pagerank) (f t : ℕ) : LinkRes :=
  match st.keyAsArrayIndex f with
  | .error m => .err m st
  | .ok (fi, st1) =>
    match st1.keyAsArrayIndex t with
    | .error m => .err m st1
    | .ok (ti, st2) => st2.linkWithIndices fi ti

/-- `Pagerank::calculate_dangling_nodes`. -/
def Pagerank.calculateDanglingNodes (st : Pagerank) : List ℕ :=
  (((st.number_out_links.take st.current_available_index).enum.filter
      (fun x => x.2 == 0)).map (fun x => x.1))

/-- The body of the `par_iter_mut` loop of `Pagerank::step`, before the
renormalization pass: the vector of raw new scores. -/
def Pagerank.stepRaw (st : Pagerank) (following_prob t_over_size : ℚ)
    (p : List ℚ) (dangling_nodes : List ℕ) : List ℚ :=
  let size := p.length
  let inner_product : ℚ := (dangling_nodes.map (fun node => p.getD node 0)).sum
  let inner_product_over_size := inner_product / (size : ℚ)
  (List.range size).map (fun i =>
    let rank_sum : ℚ :=
      ((st.in_links.getD i []).map
        (fun j => p.getD j 0 / (st.number_out_links.getD j 0 : ℚ))).sum
    following_prob * (rank_sum + inner_product_over_size) + t_over_size)

/-- `Pagerank::step`: raw scores followed by the renormalization pass
(`*x /= v_sum`). -/
def Pagerank.step (st : Pagerank) (following_prob t_over_size : ℚ)
    (p : List ℚ) (dangling_nodes : List ℕ) : List ℚ :=
  let new_p := st.stepRaw following_prob t_over_size p dangling_nodes
  let v_sum := new_p.sum
  new_p.map (fun x => x / v_sum)

/-- `Pagerank::calculate_change`: L1 distance of the two vectors. -/
def Pagerank.calculateChange (p new_p : List ℚ) : ℚ :=
  ((p.zip new_p).map (fun x => |x.1 - x.2|)).sum

/-- The probability vector after `k` iterations of `step`, starting from
`p0` (used to characterize the `while` loop of `rank`). -/
def Pagerank.pIter (st : Pagerank) (d tos : ℚ) (dn : List ℕ) (p0 : List ℚ) :
    ℕ → List ℚ
  | 0 => p0
  | k + 1 => st.step d tos (st.pIter d tos dn p0 k) dn

/-- The value of the `change` variable after `k` executed loop iterations;
`changeVal 0 = 2` is the initial sentinel. -/
def Pagerank.changeVal (st : Pagerank) (d tos : ℚ) (dn : List ℕ)
    (p0 : List ℚ) : ℕ → ℚ
  | 0 => 2
  | k + 1 =>
    Pagerank.calculateChange (st.pIter d tos dn p0 k) (st.pIter d tos dn p0 (k + 1))

/-- The `while change > tolerance` loop of `Pagerank::rank`, with fuel.
Returns the final vector together with the number of iterations executed. -/
def Pagerank.rankLoop (st : Pagerank) (d tos tol : ℚ) (dn : List ℕ) :
    ℕ → List ℚ → ℚ → Option (List ℚ × ℕ)
  | 0, p, change => if tol < change then none else some (p, 0)
  | fuel + 1, p, change =>
    if tol < change then
      let new_p := st.step d tos p dn
      match st.rankLoop d tos tol dn fuel new_p (Pagerank.calculateChange p new_p) with
      | none => none
      | some (q, k) => some (q, k + 1)
    else some (p, 0)

/-- The reporting pass at the end of `rank`: for each position, look the
index up in `index_to_key` and emit `(key, score)` when it is present. -/
def Pagerank.reportOutput (st : Pagerank) (p : List ℚ) : List (ℕ × ℚ) :=
  p.enum.filterMap (fun x =>
    (lookupKey x.1 st.index_to_key).map (fun key => (key, x.2)))

/-- `Pagerank::rank`.  The result carries the (unmodified) engine state —
the Rust method takes `&mut self` but writes no field — the list of
callback invocations in order, and the number of loop iterations run. -/
def Pagerank.rank (st : Pagerank) (following_prob tolerance : ℚ)
    (fuel : ℕ) : Option (Pagerank × List (ℕ × ℚ) × ℕ) :=
  let size := st.key_to_index.length
  let inverse_of_size : ℚ := 1 / (size : ℚ)
  let t_over_size := (1 - following_prob) * inverse_of_size
  let dangling_nodes := st.calculateDanglingNodes
  let p := List.replicate size inverse_of_size
  match st.rankLoop following_prob t_over_size tolerance dangling_nodes fuel p 2 with
  | none => none
  | some (q, iters) => some (st, st.reportOutput q, iters)

/-- `Pagerank::clear`. -/
def Pagerank.clear (st : Pagerank) : Pagerank :=
  { st with
    in_links := st.in_links.map (fun _ => [])
    number_out_links := st.number_out_links.map (fun _ => 0)
    current_available_index := 0
    key_to_index := []
    index_to_key := [] }

/-- Run a sequence of `link` calls: a recoverable error lets the caller
continue with the next call; an out-of-bounds panic aborts the run. -/
def runLinks : Pagerank → List (ℕ × ℕ) → Pagerank
  | st, [] => st
  | st, c :: rest =>
    match st.link c.1 c.2 with
    | .ok st' => runLinks st' rest
    | .err _ st' => runLinks st' rest
    | .oob st' => st'

/-- Run a sequence of `link` calls, succeeding only when every call
returns `Ok` (the `unwrap` discipline of the repository's tests). -/
def runOk : Pagerank → List (ℕ × ℕ) → Option Pagerank
  | st, [] => some st
  | st, c :: rest =>
    match st.link c.1 c.2 with
    | .ok st' => runOk st' rest
    | _ => none

/-- Whether some call of the sequence returns a `CapacityError` before the
run ends (an out-of-bounds panic aborts the run without an error return). -/
def runAnyErr : Pagerank → List (ℕ × ℕ) → Bool
  | _, [] => false
  | st, c :: rest =>
    match st.link c.1 c.2 with
    | .ok st' => runAnyErr st' rest
    | .err _ _ => true
    | .oob _ => false

/-- All identifiers mentioned by a sequence of `link` calls. -/
def linkIds (ls : List (ℕ × ℕ)) : List ℕ :=
  ls.flatMap (fun c => [c.1, c.2])

/-- The number of distinct identifiers a sequence of `link` calls introduces. -/
def distinctIdCount (ls : List (ℕ × ℕ)) : ℕ :=
  (linkIds ls).dedup.length

/-- States reachable by `new`, successful `link` calls and `clear`. -/
inductive Reachable : Pagerank → Prop where
  | init (c : ℕ) : Reachable (Pagerank.new c)
  | step {st st' : Pagerank} {f t : ℕ} :
      Reachable st → st.link f t = .ok st' → Reachable st'
  | reset {st : Pagerank} : Reachable st → Reachable st.clear

/-- The engine state carried by any outcome of a `link` call. -/
def LinkRes.state : LinkRes → Pagerank
  | .ok st => st
  | .err _ st => st
  | .oob st => st

/-- The structural well-formedness invariant of engine states: array sizes
match the capacity, the identifier map is injective with indices exactly
`0..cursor`, the two maps are mutually inverse, and the cursor is within
capacity. -/
structure WF (st : Pagerank) : Prop where
  len_in : st.in_links.length = st.capacity
  len_out : st.number_out_links.length = st.capacity
  nodupKeys : (st.key_to_index.map Prod.fst).Nodup
  snd_range : st.key_to_index.map Prod.snd = List.range st.current_available_index
  inv_map : st.index_to_key = st.key_to_index.map (fun e => (e.2, e.1))
  le_cap : st.current_available_index ≤ st.capacity

section ListLemmas

variable {α : Type _}

lemma getD_set_eq (l : List α) (i : ℕ) (a d : α) (h : i < l.length) :
    (l.set i a).getD i d = a := by
  simp [List.getD_eq_getElem?_getD, List.getElem?_set_self', List.getElem?_eq_getElem h]

lemma getD_set_ne (l : List α) {i j : ℕ} (a d : α) (h : i ≠ j) :
    (l.set i a).getD j d = l.getD j d := by
  simp [List.getD_eq_getElem?_getD, List.getElem?_set_ne h]

lemma getD_replicate (n i : ℕ) (x : α) : (List.replicate n x).getD i x = x := by
  rcases lt_or_ge i n with h | h
  · simp [List.getD_eq_getElem?_getD, List.getElem?_eq_getElem, h]
  · simp [List.getD_eq_getElem?_getD, List.getElem?_eq_none, h]

lemma getD_map_const (l : List α) {β : Type _} (c : β) (i : ℕ) :
    (l.map (fun _ => c)).getD i c = c := by
  rw [List.map_const']
  exact getD_replicate _ _ _

lemma getD_mem_or (l : List α) (i : ℕ) (d : α) :
    l.getD i d ∈ l ∨ l.getD i d = d := by
  rcases lt_or_ge i l.length with h | h
  · left
    rw [List.getD_eq_getElem?_getD, List.getElem?_eq_getElem h]
    exact List.getElem_mem h
  · right
    simp [List.getD_eq_getElem?_getD, List.getElem?_eq_none, h]

lemma getD_nonneg {p : List ℚ} (h : ∀ x ∈ p, 0 ≤ x) (j : ℕ) : 0 ≤ p.getD j 0 := by
  rcases getD_mem_or p j 0 with hm | he
  · exact h _ hm
  · rw [he]

lemma sum_map_div (l : List ℚ) (c : ℚ) :
    (l.map (fun x => x / c)).sum = l.sum / c := by
  induction l with
  | nil => simp
  | cons a l ih => simp [ih, add_div]

lemma getD_map_range {β : Type _} (f : ℕ → β) {n i : ℕ} (h : i < n) (d : β) :
    ((List.range n).map f).getD i d = f i := by
  have hlen : i < ((List.range n).map f).length := by simpa using h
  rw [List.getD_eq_getElem?_getD, List.getElem?_eq_getElem hlen]
  simp

end ListLemmas

section LookupLemmas

lemma lookupKey_mem {k v : ℕ} : ∀ {l : List (ℕ × ℕ)}, lookupKey k l = some v → (k, v) ∈ l
  | [], h => by simp [lookupKey] at h
  | e :: rest, h => by
    by_cases he : e.1 = k
    · simp only [lookupKey, he, if_pos] at h
      obtain ⟨e1, e2⟩ := e
      obtain rfl : e2 = v := by simpa using h
      obtain rfl : e1 = k := he
      exact List.mem_cons_self _ _
    · simp only [lookupKey, he, if_neg, not_false_iff] at h
      exact List.mem_cons_of_mem _ (lookupKey_mem h)

lemma lookupKey_eq_none {k : ℕ} :
    ∀ {l : List (ℕ × ℕ)}, lookupKey k l = none ↔ k ∉ l.map Prod.fst
  | [] => by simp [lookupKey]
  | e :: rest => by
    by_cases he : e.1 = k
    · simp [lookupKey, he]
    · simp [lookupKey, he, lookupKey_eq_none, Ne.symm he]

lemma lookupKey_isSome_of_mem {k : ℕ} :
    ∀ {l : List (ℕ × ℕ)}, k ∈ l.map Prod.fst → (lookupKey k l).isSome = true := by
  intro l h
  cases hl : lookupKey k l with
  | none => exact absurd (lookupKey_eq_none.mp hl) (not_not_intro h)
  | some v => rfl

lemma lookupKey_append (k : ℕ) (l₁ l₂ : List (ℕ × ℕ)) :
    lookupKey k (l₁ ++ l₂) =
      match lookupKey k l₁ with
      | some v => some v
      | none => lookupKey k l₂ := by
  induction l₁ with
  | nil => simp [lookupKey]
  | cons e rest ih =>
    by_cases he : e.1 = k
    · simp [lookupKey, he]
    · simp [lookupKey, he, ih]

lemma lookupKey_append_single_self {k v : ℕ} {l : List (ℕ × ℕ)}
    (h : lookupKey k l = none) : lookupKey k (l ++ [(k, v)]) = some v := by
  rw [lookupKey_append, h]
  simp [lookupKey]

lemma lookupKey_append_single_ne {k k' v : ℕ} (l : List (ℕ × ℕ)) (h : k' ≠ k) :
    lookupKey k (l ++ [(k', v)]) = lookupKey k l := by
  rw [lookupKey_append]
  cases hl : lookupKey k l with
  | none => simp [lookupKey, h]
  | some w => rfl

end LookupLemmas

section LinkCharacterization

/-- The state after resolving key `k` when the capacity guard passes:
unchanged when `k` is already registered, extended otherwise. -/
def Pagerank.afterKey (st : Pagerank) (k : ℕ) : Pagerank :=
  match lookupKey k st.key_to_index with
  | some _ => st
  | none => st.registerKey k

/-- The index `key_as_array_index` resolves `k` to when the guard passes. -/
def Pagerank.idxOf (st : Pagerank) (k : ℕ) : ℕ :=
  (lookupKey k st.key_to_index).getD st.current_available_index

lemma keyAsArrayIndex_over {st : Pagerank} (k : ℕ)
    (h : st.capacity < st.current_available_index) :
    st.keyAsArrayIndex k =
      .error (capacityMessage st.current_available_index st.capacity) := by
  simp [Pagerank.keyAsArrayIndex, h]

lemma keyAsArrayIndex_ok {st : Pagerank} (k : ℕ)
    (h : st.current_available_index ≤ st.capacity) :
    st.keyAsArrayIndex k = .ok (st.idxOf k, st.afterKey k) := by
  have h' : ¬ st.capacity < st.current_available_index := not_lt.mpr h
  cases hl : lookupKey k st.key_to_index with
  | some i => simp [Pagerank.keyAsArrayIndex, Pagerank.idxOf, Pagerank.afterKey, h', hl]
  | none => simp [Pagerank.keyAsArrayIndex, Pagerank.idxOf, Pagerank.afterKey, h', hl]

lemma registerKey_fields (st : Pagerank) (k : ℕ) :
    (st.registerKey k).in_links = st.in_links
    ∧ (st.registerKey k).number_out_links = st.number_out_links
    ∧ (st.registerKey k).capacity = st.capacity
    ∧ (st.registerKey k).current_available_index = st.current_available_index + 1
    ∧ (st.registerKey k).key_to_index
        = st.key_to_index ++ [(k, st.current_available_index)] := by
  simp [Pagerank.registerKey]

lemma afterKey_fields (st : Pagerank) (k : ℕ) :
    (st.afterKey k).in_links = st.in_links
    ∧ (st.afterKey k).number_out_links = st.number_out_links
    ∧ (st.afterKey k).capacity = st.capacity := by
  unfold Pagerank.afterKey
  cases lookupKey k st.key_to_index with
  | some i => exact ⟨rfl, rfl, rfl⟩
  | none => exact ⟨(registerKey_fields st k).1, (registerKey_fields st k).2.1,
      (registerKey_fields st k).2.2.1⟩

lemma lookup_afterKey_self (st : Pagerank) (k : ℕ) :
    lookupKey k (st.afterKey k).key_to_index = some (st.idxOf k) := by
  unfold Pagerank.afterKey Pagerank.idxOf
  cases hl : lookupKey k st.key_to_index with
  | some i => simp [hl]
  | none => simp [hl, Pagerank.registerKey, lookupKey_append_single_self hl]

lemma lookup_afterKey_other (st : Pagerank) {k k' : ℕ} (h : k' ≠ k) :
    lookupKey k (st.afterKey k').key_to_index = lookupKey k st.key_to_index := by
  unfold Pagerank.afterKey
  cases hl : lookupKey k' st.key_to_index with
  | some i => rfl
  | none => simp [Pagerank.registerKey, lookupKey_append_single_ne _ h]

lemma link_err_first {st : Pagerank} (f t : ℕ)
    (h1 : st.capacity < st.current_available_index) :
    st.link f t = .err (capacityMessage st.current_available_index st.capacity) st := by
  simp only [Pagerank.link, keyAsArrayIndex_over f h1]

lemma link_err_second {st : Pagerank} (f t : ℕ)
    (h1 : st.current_available_index ≤ st.capacity)
    (h2 : st.capacity < (st.afterKey f).current_available_index) :
    st.link f t = .err (capacityMessage (st.afterKey f).current_available_index
      st.capacity) (st.afterKey f) := by
  have hcap1 := (afterKey_fields st f).2.2
  have h2' : (st.afterKey f).capacity < (st.afterKey f).current_available_index := by
    rwa [hcap1]
  simp only [Pagerank.link, keyAsArrayIndex_ok f h1, keyAsArrayIndex_over t h2', hcap1]

lemma link_eq_of_guards {st : Pagerank} (f t : ℕ)
    (h1 : st.current_available_index ≤ st.capacity)
    (h2 : (st.afterKey f).current_available_index ≤ st.capacity) :
    st.link f t = ((st.afterKey f).afterKey t).linkWithIndices (st.idxOf f)
      ((st.afterKey f).idxOf t) := by
  have hcap1 := (afterKey_fields st f).2.2
  have h2' : (st.afterKey f).current_available_index ≤ (st.afterKey f).capacity := by
    rwa [hcap1]
  simp only [Pagerank.link, keyAsArrayIndex_ok f h1, keyAsArrayIndex_ok t h2']

lemma linkWithIndices_ok {st : Pagerank} (fi ti : ℕ)
    (h3 : ti < st.in_links.length) (h4 : fi < st.number_out_links.length) :
    st.linkWithIndices fi ti = .ok { st with
      in_links := st.in_links.set ti (st.in_links.getD ti [] ++ [fi])
      number_out_links :=
        st.number_out_links.set fi (st.number_out_links.getD fi 0 + 1) } := by
  simp only [Pagerank.linkWithIndices, Pagerank.updateInLinks, if_pos h3,
    Pagerank.updateNumberOutLinks]
  rw [if_pos (by simpa using h4)]

lemma linkWithIndices_oob_to {st : Pagerank} (fi ti : ℕ)
    (h3 : ¬ ti < st.in_links.length) :
    st.linkWithIndices fi ti = .oob st := by
  simp only [Pagerank.linkWithIndices, Pagerank.updateInLinks, if_neg h3]

lemma linkWithIndices_oob_from {st : Pagerank} (fi ti : ℕ)
    (h3 : ti < st.in_links.length) (h4 : ¬ fi < st.number_out_links.length) :
    st.linkWithIndices fi ti = .oob { st with
      in_links := st.in_links.set ti (st.in_links.getD ti [] ++ [fi]) } := by
  simp only [Pagerank.linkWithIndices, Pagerank.updateInLinks, if_pos h3,
    Pagerank.updateNumberOutLinks]
  rw [if_neg (by simpa using h4)]

/-- Full characterization of a successful `link` call: both capacity guards
passed, both resolved indices are within the backing arrays, and the result
state is the doubly-resolved state with the edge recorded. -/
lemma link_ok_elim {st st' : Pagerank} {f t : ℕ} (h : st.link f t = .ok st') :
    st.current_available_index ≤ st.capacity
    ∧ (st.afterKey f).current_available_index ≤ st.capacity
    ∧ (st.afterKey f).idxOf t < st.in_links.length
    ∧ st.idxOf f < st.number_out_links.length
    ∧ st' = { (st.afterKey f).afterKey t with
        in_links := st.in_links.set ((st.afterKey f).idxOf t)
          (st.in_links.getD ((st.afterKey f).idxOf t) [] ++ [st.idxOf f])
        number_out_links := st.number_out_links.set (st.idxOf f)
          (st.number_out_links.getD (st.idxOf f) 0 + 1) } := by
  by_cases h1 : st.capacity < st.current_available_index
  · rw [link_err_first f t h1] at h
    exact absurd h (by simp)
  · have h1' : st.current_available_index ≤ st.capacity := not_lt.mp h1
    by_cases h2 : st.capacity < (st.afterKey f).current_available_index
    · rw [link_err_second f t h1' h2] at h
      exact absurd h (by simp)
    · have h2' : (st.afterKey f).current_available_index ≤ st.capacity := not_lt.mp h2
      rw [link_eq_of_guards f t h1' h2'] at h
      have hin : ((st.afterKey f).afterKey t).in_links = st.in_links := by
        rw [(afterKey_fields (st.afterKey f) t).1, (afterKey_fields st f).1]
      have hout : ((st.afterKey f).afterKey t).number_out_links
          = st.number_out_links := by
        rw [(afterKey_fields (st.afterKey f) t).2.1, (afterKey_fields st f).2.1]
      by_cases h3 : (st.afterKey f).idxOf t
          < ((st.afterKey f).afterKey t).in_links.length
      · by_cases h4 : st.idxOf f
            < ((st.afterKey f).afterKey t).number_out_links.length
        · rw [linkWithIndices_ok _ _ h3 h4] at h
          simp only [LinkRes.ok.injEq] at h
          refine ⟨h1', h2', by rwa [hin] at h3, by rwa [hout] at h4, ?_⟩
          rw [hin, hout] at h
          exact h.symm
        · rw [linkWithIndices_oob_from _ _ h3 h4] at h
          exact absurd h (by simp)
      · rw [linkWithIndices_oob_to _ _ h3] at h
        exact absurd h (by simp)

/-- Converse: when both guards pass and both indices are in bounds,
`link` succeeds with exactly that state. -/
lemma link_ok_intro {st : Pagerank} {f t : ℕ}
    (h1 : st.current_available_index ≤ st.capacity)
    (h2 : (st.afterKey f).current_available_index ≤ st.capacity)
    (h3 : (st.afterKey f).idxOf t < st.in_links.length)
    (h4 : st.idxOf f < st.number_out_links.length) :
    st.link f t = .ok { (st.afterKey f).afterKey t with
        in_links := st.in_links.set ((st.afterKey f).idxOf t)
          (st.in_links.getD ((st.afterKey f).idxOf t) [] ++ [st.idxOf f])
        number_out_links := st.number_out_links.set (st.idxOf f)
          (st.number_out_links.getD (st.idxOf f) 0 + 1) } := by
  have hin : ((st.afterKey f).afterKey t).in_links = st.in_links := by
    rw [(afterKey_fields (st.afterKey f) t).1, (afterKey_fields st f).1]
  have hout : ((st.afterKey f).afterKey t).number_out_links = st.number_out_links := by
    rw [(afterKey_fields (st.afterKey f) t).2.1, (afterKey_fields st f).2.1]
  rw [link_eq_of_guards f t h1 h2,
    linkWithIndices_ok _ _ (by rwa [hin]) (by rwa [hout]), hin, hout]

end LinkCharacterization

section WellFormedness

/-- The externally supplied identifiers currently registered. -/
def keysOf (st : Pagerank) : List ℕ := st.key_to_index.map Prod.fst

lemma WF.key_len {st : Pagerank} (wf : WF st) :
    st.key_to_index.length = st.current_available_index := by
  have h := congrArg List.length wf.snd_range
  simpa using h

lemma WF.keys_len {st : Pagerank} (wf : WF st) :
    (keysOf st).length = st.current_available_index := by
  simpa [keysOf] using wf.key_len

lemma WF.idx_lt {st : Pagerank} (wf : WF st) {k i : ℕ}
    (h : lookupKey k st.key_to_index = some i) : i < st.current_available_index := by
  have hmem : (k, i) ∈ st.key_to_index := lookupKey_mem h
  have : i ∈ st.key_to_index.map Prod.snd := List.mem_map_of_mem Prod.snd hmem
  rw [wf.snd_range] at this
  exact List.mem_range.mp this

lemma WF_new (c : ℕ) : WF (Pagerank.new c) := by
  constructor <;> simp [Pagerank.new]

lemma WF_clear {st : Pagerank} (wf : WF st) : WF st.clear := by
  constructor <;> simp [Pagerank.clear, wf.len_in, wf.len_out]

lemma registerKey_WF {st : Pagerank} {k : ℕ} (wf : WF st)
    (hnew : lookupKey k st.key_to_index = none)
    (hlt : st.current_available_index < st.capacity) : WF (st.registerKey k) := by
  have hnotin : k ∉ st.key_to_index.map Prod.fst := lookupKey_eq_none.mp hnew
  constructor
  · simpa [Pagerank.registerKey] using wf.len_in
  · simpa [Pagerank.registerKey] using wf.len_out
  · simp only [Pagerank.registerKey, List.map_append, List.map_cons, List.map_nil]
    refine wf.nodupKeys.append (List.nodup_singleton k) ?_
    intro a ha hb
    rw [List.mem_singleton] at hb
    subst hb
    exact hnotin ha
  · simp only [Pagerank.registerKey, List.map_append, List.map_cons, List.map_nil,
      wf.snd_range]
    rw [List.range_succ]
  · simp [Pagerank.registerKey, wf.inv_map]
  · simpa [Pagerank.registerKey] using hlt

lemma afterKey_WF {st : Pagerank} {k : ℕ} (wf : WF st)
    (hlt : lookupKey k st.key_to_index = none →
      st.current_available_index < st.capacity) : WF (st.afterKey k) := by
  unfold Pagerank.afterKey
  cases hl : lookupKey k st.key_to_index with
  | some i => exact wf
  | none => exact registerKey_WF wf hl (hlt hl)

lemma keysOf_afterKey_cases (st : Pagerank) (k : ℕ) :
    keysOf (st.afterKey k) = keysOf st
    ∨ keysOf (st.afterKey k) = keysOf st ++ [k] := by
  unfold Pagerank.afterKey
  cases hl : lookupKey k st.key_to_index with
  | some i => exact Or.inl rfl
  | none =>
    right
    simp [keysOf, Pagerank.registerKey]

lemma mem_keysOf_afterKey (st : Pagerank) (k : ℕ) : k ∈ keysOf (st.afterKey k) := by
  have h := lookup_afterKey_self st k
  exact List.mem_map_of_mem Prod.fst (lookupKey_mem h)

lemma keysOf_subset_afterKey (st : Pagerank) (k : ℕ) :
    keysOf st ⊆ keysOf (st.afterKey k) := by
  rcases keysOf_afterKey_cases st k with h | h <;> rw [h]
  · exact fun a ha => ha
  · exact fun a ha => List.mem_append_left _ ha

lemma cursor_afterKey_le (st : Pagerank) (k : ℕ) :
    (st.afterKey k).current_available_index ≤ st.current_available_index + 1 := by
  unfold Pagerank.afterKey
  cases lookupKey k st.key_to_index with
  | some i => exact Nat.le_succ _
  | none => simp [Pagerank.registerKey]

/-- A successful `link` call preserves well-formedness; both endpoints end
up registered, and no identifier beyond them is added. -/
lemma WF_link_ok {st st' : Pagerank} {f t : ℕ} (wf : WF st)
    (h : st.link f t = .ok st') :
    WF st'
    ∧ keysOf st ⊆ keysOf st'
    ∧ f ∈ keysOf st'
    ∧ t ∈ keysOf st'
    ∧ keysOf st' ⊆ f :: t :: keysOf st
    ∧ st'.capacity = st.capacity
    ∧ st'.key_to_index = ((st.afterKey f).afterKey t).key_to_index := by
  obtain ⟨h1, h2, h3, h4, h5⟩ := link_ok_elim h
  -- conditions for extending by `f`
  have hf_cond : lookupKey f st.key_to_index = none →
      st.current_available_index < st.capacity := by
    intro hl
    have : st.idxOf f = st.current_available_index := by simp [Pagerank.idxOf, hl]
    rw [wf.len_out] at h4
    rwa [this] at h4
  have wf1 : WF (st.afterKey f) := afterKey_WF wf hf_cond
  have hcap1 : (st.afterKey f).capacity = st.capacity := (afterKey_fields st f).2.2
  have ht_cond : lookupKey t (st.afterKey f).key_to_index = none →
      (st.afterKey f).current_available_index < (st.afterKey f).capacity := by
    intro hl
    have : (st.afterKey f).idxOf t = (st.afterKey f).current_available_index := by
      simp [Pagerank.idxOf, hl]
    rw [wf.len_in] at h3
    rw [hcap1]
    rwa [this] at h3
  have wf2 : WF ((st.afterKey f).afterKey t) := afterKey_WF wf1 ht_cond
  have hcap2 : ((st.afterKey f).afterKey t).capacity = st.capacity := by
    rw [(afterKey_fields (st.afterKey f) t).2.2, hcap1]
  have hkeys' : keysOf st' = keysOf ((st.afterKey f).afterKey t) := by
    rw [h5]; rfl
  refine ⟨?_, ?_, ?_, ?_, ?_, ?_, ?_⟩
  · constructor
    · rw [h5]
      simpa [hcap2] using wf.len_in
    · rw [h5]
      simpa [hcap2] using wf.len_out
    · rw [h5]
      exact wf2.nodupKeys
    · rw [h5]
      exact wf2.snd_range
    · rw [h5]
      exact wf2.inv_map
    · rw [h5]
      exact wf2.le_cap
  · rw [hkeys']
    exact fun a ha => keysOf_subset_afterKey _ t (keysOf_subset_afterKey st f ha)
  · rw [hkeys']
    exact keysOf_subset_afterKey _ t (mem_keysOf_afterKey st f)
  · rw [hkeys']
    exact mem_keysOf_afterKey _ t
  · rw [hkeys']
    intro a ha
    rcases keysOf_afterKey_cases (st.afterKey f) t with hc | hc
      <;> rw [hc] at ha
    · rcases keysOf_afterKey_cases st f with hb | hb <;> rw [hb] at ha
      · exact List.mem_cons_of_mem _ (List.mem_cons_of_mem _ ha)
      · rcases List.mem_append.mp ha with ha' | ha'
        · exact List.mem_cons_of_mem _ (List.mem_cons_of_mem _ ha')
        · rw [List.mem_singleton] at ha'
          subst ha'
          exact List.mem_cons_self _ _
    · rcases List.mem_append.mp ha with ha' | ha'
      · rcases keysOf_afterKey_cases st f with hb | hb <;> rw [hb] at ha'
        · exact List.mem_cons_of_mem _ (List.mem_cons_of_mem _ ha')
        · rcases List.mem_append.mp ha' with ha'' | ha''
          · exact List.mem_cons_of_mem _ (List.mem_cons_of_mem _ ha'')
          · rw [List.mem_singleton] at ha''
            subst ha''
            exact List.mem_cons_self _ _
      · rw [List.mem_singleton] at ha'
        subst ha'
        exact List.mem_cons_of_mem _ (List.mem_cons_self _ _)
  · rw [h5]
    exact hcap2
  · rw [h5]

lemma reachable_WF {st : Pagerank} (h : Reachable st) : WF st := by
  induction h with
  | init c => exact WF_new c
  | step _ hlink ih => exact (WF_link_ok ih hlink).1
  | reset _ ih => exact WF_clear ih

end WellFormedness

section RunLemmas

lemma cursor_le_bound {st : Pagerank} {S : List ℕ} {B : ℕ} (wf : WF st)
    (hsub : keysOf st ⊆ S) (hnd : S.Nodup) (hlen : S.length ≤ B) :
    st.current_available_index ≤ B := by
  have h := (wf.nodupKeys.subperm hsub).length_le
  have h2 : (keysOf st).length ≤ S.length := h
  rw [wf.keys_len] at h2
  exact le_trans h2 hlen

lemma cursor_lt_bound {st : Pagerank} {S : List ℕ} {B k : ℕ} (wf : WF st)
    (hsub : keysOf st ⊆ S) (hnd : S.Nodup) (hlen : S.length ≤ B)
    (hk : k ∈ S) (hnot : k ∉ keysOf st) : st.current_available_index < B := by
  have hnd2 : (k :: keysOf st).Nodup := List.nodup_cons.mpr ⟨hnot, wf.nodupKeys⟩
  have hsub2 : (k :: keysOf st) ⊆ S := by
    intro a ha
    rcases List.mem_cons.mp ha with rfl | h
    · exact hk
    · exact hsub h
  have h := (hnd2.subperm hsub2).length_le
  have h2 : (keysOf st).length + 1 ≤ S.length := by simpa using h
  rw [wf.keys_len] at h2
  omega

lemma link_ok_exists {st : Pagerank} {S : List ℕ} {f t : ℕ} (wf : WF st)
    (hnd : S.Nodup) (hsub : keysOf st ⊆ S) (hf : f ∈ S) (ht : t ∈ S)
    (hlen : S.length ≤ st.capacity) : ∃ st', st.link f t = .ok st' := by
  have h1 : st.current_available_index ≤ st.capacity :=
    cursor_le_bound wf hsub hnd hlen
  have hf_cond : lookupKey f st.key_to_index = none →
      st.current_available_index < st.capacity := fun hl =>
    cursor_lt_bound wf hsub hnd hlen hf (lookupKey_eq_none.mp hl)
  have h4 : st.idxOf f < st.number_out_links.length := by
    rw [wf.len_out]
    cases hl : lookupKey f st.key_to_index with
    | some i =>
      simp only [Pagerank.idxOf, hl, Option.getD_some]
      exact lt_of_lt_of_le (wf.idx_lt hl) h1
    | none =>
      simp only [Pagerank.idxOf, hl, Option.getD_none]
      exact hf_cond hl
  have wf1 : WF (st.afterKey f) := afterKey_WF wf hf_cond
  have hsub1 : keysOf (st.afterKey f) ⊆ S := by
    rcases keysOf_afterKey_cases st f with hc | hc <;> rw [hc]
    · exact hsub
    · intro a ha
      rcases List.mem_append.mp ha with h | h
      · exact hsub h
      · rw [List.mem_singleton] at h
        subst h
        exact hf
  have hcap1 : (st.afterKey f).capacity = st.capacity := (afterKey_fields st f).2.2
  have h2 : (st.afterKey f).current_available_index ≤ st.capacity :=
    cursor_le_bound wf1 hsub1 hnd hlen
  have h3 : (st.afterKey f).idxOf t < st.in_links.length := by
    rw [wf.len_in]
    cases hl : lookupKey t (st.afterKey f).key_to_index with
    | some i =>
      simp only [Pagerank.idxOf, hl, Option.getD_some]
      exact lt_of_lt_of_le (wf1.idx_lt hl) h2
    | none =>
      simp only [Pagerank.idxOf, hl, Option.getD_none]
      exact cursor_lt_bound wf1 hsub1 hnd hlen ht (lookupKey_eq_none.mp hl)
  exact ⟨_, link_ok_intro h1 h2 h3 h4⟩

lemma linkIds_cons (c : ℕ × ℕ) (rest : List (ℕ × ℕ)) :
    linkIds (c :: rest) = c.1 :: c.2 :: linkIds rest := by
  simp [linkIds]

lemma runOk_total : ∀ (ls : List (ℕ × ℕ)) (st : Pagerank) (S : List ℕ),
    WF st → S.Nodup → keysOf st ⊆ S → linkIds ls ⊆ S →
    S.length ≤ st.capacity → (runOk st ls).isSome = true
  | [], st, S, _, _, _, _, _ => rfl
  | c :: rest, st, S, wf, hnd, hsub, hids, hlen => by
    rw [linkIds_cons] at hids
    have hf : c.1 ∈ S := hids (List.mem_cons_self _ _)
    have ht : c.2 ∈ S := hids (List.mem_cons_of_mem _ (List.mem_cons_self _ _))
    have hrest : linkIds rest ⊆ S := fun a ha =>
      hids (List.mem_cons_of_mem _ (List.mem_cons_of_mem _ ha))
    obtain ⟨st', hok⟩ := link_ok_exists wf hnd hsub hf ht hlen
    obtain ⟨wf', hsub', _, _, hsup', hcap', _⟩ := WF_link_ok wf hok
    have hsubS : keysOf st' ⊆ S := by
      intro a ha
      rcases List.mem_cons.mp (hsup' ha) with rfl | h
      · exact hf
      · rcases List.mem_cons.mp h with rfl | h'
        · exact ht
        · exact hsub h'
    have := runOk_total rest st' S wf' hnd hsubS hrest (by rwa [hcap'])
    simpa [runOk, hok] using this

lemma runOk_invariant : ∀ (ls : List (ℕ × ℕ)) (st st' : Pagerank),
    WF st → runOk st ls = some st' →
    WF st' ∧ keysOf st ⊆ keysOf st' ∧ linkIds ls ⊆ keysOf st'
      ∧ st'.capacity = st.capacity
  | [], st, st', wf, h => by
    have : st = st' := by simpa [runOk] using h
    subst this
    exact ⟨wf, fun a ha => ha, by simp [linkIds], rfl⟩
  | c :: rest, st, st', wf, h => by
    cases hres : st.link c.1 c.2 with
    | ok st1 =>
      rw [runOk, hres] at h
      obtain ⟨wf1, hsub1, hf1, ht1, _, hcap1, _⟩ := WF_link_ok wf hres
      obtain ⟨wf', hsub', hids', hcap'⟩ := runOk_invariant rest st1 st' wf1 h
      refine ⟨wf', fun a ha => hsub' (hsub1 ha), ?_, by rw [hcap', hcap1]⟩
      rw [linkIds_cons]
      intro a ha
      rcases List.mem_cons.mp ha with rfl | h'
      · exact hsub' hf1
      · rcases List.mem_cons.mp h' with rfl | h''
        · exact hsub' ht1
        · exact hids' h''
    | err m st1 =>
      rw [runOk, hres] at h
      exact absurd h (by simp)
    | oob st1 =>
      rw [runOk, hres] at h
      exact absurd h (by simp)

end RunLemmas

section NumericLemmas

lemma stepRaw_length (st : Pagerank) (d tos : ℚ) (p : List ℚ) (dn : List ℕ) :
    (st.stepRaw d tos p dn).length = p.length := by
  simp [Pagerank.stepRaw]

lemma step_length (st : Pagerank) (d tos : ℚ) (p : List ℚ) (dn : List ℕ) :
    (st.step d tos p dn).length = p.length := by
  simp [Pagerank.step, stepRaw_length]

lemma pIter_length (st : Pagerank) (d tos : ℚ) (dn : List ℕ) (p0 : List ℚ) :
    ∀ k, (st.pIter d tos dn p0 k).length = p0.length
  | 0 => rfl
  | k + 1 => by rw [Pagerank.pIter, step_length]; exact pIter_length st d tos dn p0 k

lemma stepRaw_getD (st : Pagerank) (d tos : ℚ) (p : List ℚ) (dn : List ℕ)
    {i : ℕ} (h : i < p.length) :
    (st.stepRaw d tos p dn).getD i 0 =
      d * (((st.in_links.getD i []).map
            (fun j => p.getD j 0 / (st.number_out_links.getD j 0 : ℚ))).sum
          + (dn.map (fun node => p.getD node 0)).sum / (p.length : ℚ)) + tos := by
  unfold Pagerank.stepRaw
  exact getD_map_range _ h 0

lemma stepRaw_entry_pos (st : Pagerank) {d tos : ℚ} (p : List ℚ) (dn : List ℕ)
    (hd0 : 0 < d) (htos : 0 < tos) (hnn : ∀ x ∈ p, 0 ≤ x) :
    ∀ x ∈ st.stepRaw d tos p dn, 0 < x := by
  intro x hx
  unfold Pagerank.stepRaw at hx
  simp only [List.mem_map, List.mem_range] at hx
  obtain ⟨i, _, rfl⟩ := hx
  have hrank : 0 ≤ ((st.in_links.getD i []).map
      (fun j => p.getD j 0 / (st.number_out_links.getD j 0 : ℚ))).sum := by
    apply List.sum_nonneg
    intro y hy
    simp only [List.mem_map] at hy
    obtain ⟨j, _, rfl⟩ := hy
    exact div_nonneg (getD_nonneg hnn j) (Nat.cast_nonneg _)
  have hip : 0 ≤ (dn.map (fun node => p.getD node 0)).sum := by
    apply List.sum_nonneg
    intro y hy
    simp only [List.mem_map] at hy
    obtain ⟨j, _, rfl⟩ := hy
    exact getD_nonneg hnn j
  have hips : 0 ≤ (dn.map (fun node => p.getD node 0)).sum / (p.length : ℚ) :=
    div_nonneg hip (Nat.cast_nonneg _)
  have : 0 ≤ d * (((st.in_links.getD i []).map
      (fun j => p.getD j 0 / (st.number_out_links.getD j 0 : ℚ))).sum
      + (dn.map (fun node => p.getD node 0)).sum / (p.length : ℚ)) :=
    mul_nonneg (le_of_lt hd0) (add_nonneg hrank hips)
  exact add_pos_of_nonneg_of_pos this htos

lemma stepRaw_sum_pos (st : Pagerank) {d tos : ℚ} (p : List ℚ) (dn : List ℕ)
    (hne : p ≠ []) (hd0 : 0 < d) (htos : 0 < tos) (hnn : ∀ x ∈ p, 0 ≤ x) :
    0 < (st.stepRaw d tos p dn).sum := by
  apply List.sum_pos
  · exact stepRaw_entry_pos st p dn hd0 htos hnn
  · have : (st.stepRaw d tos p dn).length ≠ 0 := by
      rw [stepRaw_length]
      exact fun h => hne (List.eq_nil_of_length_eq_zero h)
    exact fun h => this (by rw [h]; rfl)

/-- After the renormalization pass the scores sum to exactly `1`. -/
lemma step_sum_one (st : Pagerank) {d tos : ℚ} (p : List ℚ) (dn : List ℕ)
    (hne : p ≠ []) (hd0 : 0 < d) (htos : 0 < tos) (hnn : ∀ x ∈ p, 0 ≤ x) :
    (st.step d tos p dn).sum = 1 := by
  unfold Pagerank.step
  rw [sum_map_div]
  exact div_self (ne_of_gt (stepRaw_sum_pos st p dn hne hd0 htos hnn))

/-- Entries of a `step` output are nonnegative (needed to iterate). -/
lemma step_nonneg (st : Pagerank) {d tos : ℚ} (p : List ℚ) (dn : List ℕ)
    (hd0 : 0 < d) (htos : 0 < tos) (hnn : ∀ x ∈ p, 0 ≤ x) :
    ∀ x ∈ st.step d tos p dn, 0 ≤ x := by
  intro x hx
  unfold Pagerank.step at hx
  simp only [List.mem_map] at hx
  obtain ⟨y, hy, rfl⟩ := hx
  have hy0 : 0 < y := stepRaw_entry_pos st p dn hd0 htos hnn y hy
  have hs : 0 ≤ (st.stepRaw d tos p dn).sum :=
    List.sum_nonneg (fun z hz => le_of_lt (stepRaw_entry_pos st p dn hd0 htos hnn z hz))
  exact div_nonneg (le_of_lt hy0) hs

end NumericLemmas

section LoopLemmas

/-- Characterization of the fuelled `while` loop: a run that returns ran
exactly `k` iterations, its result is the `k`-th iterate, the change value
after the last iteration is within tolerance, and every earlier change
value (including the initial sentinel) was above tolerance. -/
lemma rankLoop_char (st : Pagerank) (d tos tol : ℚ) (dn : List ℕ) (p0 : List ℚ) :
    ∀ (fuel m k : ℕ) (p : List ℚ) (c : ℚ) (q : List ℚ),
    p = st.pIter d tos dn p0 m → c = st.changeVal d tos dn p0 m →
    st.rankLoop d tos tol dn fuel p c = some (q, k) →
    q = st.pIter d tos dn p0 (m + k)
    ∧ st.changeVal d tos dn p0 (m + k) ≤ tol
    ∧ ∀ j, m ≤ j → j < m + k → tol < st.changeVal d tos dn p0 j := by
  intro fuel
  induction fuel with
  | zero =>
    intro m k p c q hp hc h
    rw [Pagerank.rankLoop] at h
    by_cases hcd : tol < c
    · rw [if_pos hcd] at h
      exact absurd h (by simp)
    · rw [if_neg hcd] at h
      simp only [Option.some.injEq, Prod.mk.injEq] at h
      obtain ⟨rfl, rfl⟩ := h
      refine ⟨by rw [hp, Nat.add_zero], ?_, ?_⟩
      · rw [Nat.add_zero, ← hc]
        simpa using not_lt.mp hcd
      · intro j hj1 hj2
        omega
  | succ fuel ih =>
    intro m k p c q hp hc h
    rw [Pagerank.rankLoop] at h
    by_cases hcd : tol < c
    · rw [if_pos hcd] at h
      simp only at h
      cases hrec : st.rankLoop d tos tol dn fuel (st.step d tos p dn)
          (Pagerank.calculateChange p (st.step d tos p dn)) with
      | none => rw [hrec] at h; exact absurd h (by simp)
      | some r =>
        obtain ⟨q', k'⟩ := r
        rw [hrec] at h
        simp only [Option.some.injEq, Prod.mk.injEq] at h
        obtain ⟨rfl, rfl⟩ := h
        have hp1 : st.step d tos p dn = st.pIter d tos dn p0 (m + 1) := by
          rw [hp]; rfl
        have hc1 : Pagerank.calculateChange p (st.step d tos p dn)
            = st.changeVal d tos dn p0 (m + 1) := by
          rw [hp]; rfl
        obtain ⟨hq, hch, hall⟩ := ih (m + 1) k' (st.step d tos p dn)
          (Pagerank.calculateChange p (st.step d tos p dn)) q' hp1 hc1 hrec
        refine ⟨by rw [hq]; congr 1; omega, by rw [show m + (k' + 1) = m + 1 + k' by omega]; exact hch, ?_⟩
        intro j hj1 hj2
        rcases Nat.eq_or_lt_of_le hj1 with rfl | hj1'
        · rw [← hc]
          exact hcd
        · exact hall j hj1' (by omega)
    · rw [if_neg hcd] at h
      simp only [Option.some.injEq, Prod.mk.injEq] at h
      obtain ⟨rfl, rfl⟩ := h
      refine ⟨by rw [hp, Nat.add_zero], ?_, ?_⟩
      · rw [Nat.add_zero, ← hc]
        simpa using not_lt.mp hcd
      · intro j hj1 hj2
        omega

/-- Unfolding of `rank` as the loop applied to the uniform start vector. -/
lemma rank_elim {st st' : Pagerank} {d tol : ℚ} {fuel k : ℕ}
    {out : List (ℕ × ℚ)}
    (h : st.rank d tol fuel = some (st', out, k)) :
    st' = st ∧ ∃ q,
      st.rankLoop d ((1 - d) * (1 / (st.key_to_index.length : ℚ))) tol
        st.calculateDanglingNodes fuel
        (List.replicate st.key_to_index.length (1 / (st.key_to_index.length : ℚ))) 2
        = some (q, k)
      ∧ out = st.reportOutput q := by
  have h' : (match st.rankLoop d ((1 - d) * (1 / (st.key_to_index.length : ℚ))) tol
      st.calculateDanglingNodes fuel
      (List.replicate st.key_to_index.length (1 / (st.key_to_index.length : ℚ))) 2 with
    | none => none
    | some (q, iters) => some (st, st.reportOutput q, iters)) = some (st', out, k) := h
  cases hres : st.rankLoop d ((1 - d) * (1 / (st.key_to_index.length : ℚ))) tol
      st.calculateDanglingNodes fuel
      (List.replicate st.key_to_index.length (1 / (st.key_to_index.length : ℚ))) 2 with
  | none =>
    rw [hres] at h'
    exact absurd h' (by simp)
  | some r =>
    obtain ⟨q, k'⟩ := r
    rw [hres] at h'
    simp only [Option.some.injEq, Prod.mk.injEq] at h'
    obtain ⟨rfl, rfl, rfl⟩ := h'
    exact ⟨rfl, q, rfl, rfl⟩

end LoopLemmas

section ReportLemmas

lemma filterMap_lookup_eq_map (m : List (ℕ × ℕ)) :
    ∀ (l : List (ℕ × ℚ)), (∀ x ∈ l, (lookupKey x.1 m).isSome = true) →
    l.filterMap (fun x => (lookupKey x.1 m).map (fun key => (key, x.2)))
      = l.map (fun x => ((lookupKey x.1 m).getD 0, x.2))
  | [], _ => rfl
  | a :: l, h => by
    have ha : (lookupKey a.1 m).isSome = true := h a (List.mem_cons_self _ _)
    obtain ⟨v, hv⟩ := Option.isSome_iff_exists.mp ha
    have ih := filterMap_lookup_eq_map m l
      (fun x hx => h x (List.mem_cons_of_mem _ hx))
    simp [List.filterMap_cons, hv, ih]

lemma enum_map_eq_range_map (g : ℕ → ℕ) (q : List ℚ) :
    q.enum.map (fun x => (g x.1, x.2))
      = (List.range q.length).map (fun i => (g i, q.getD i 0)) := by
  apply List.ext_getElem
  · simp
  · intro i h1 h2
    have hi : i < q.length := by simpa using h2
    simp [List.getElem_enum, List.getD_eq_getElem?_getD, List.getElem?_eq_getElem hi]

lemma fst_lt_of_mem_enum {q : List ℚ} {x : ℕ × ℚ} (h : x ∈ q.enum) :
    x.1 < q.length := by
  rw [List.enum_eq_zip_range] at h
  obtain ⟨a, b⟩ := x
  have := (List.of_mem_zip h).1
  simpa using this

lemma reportOutput_eq (st : Pagerank) (q : List ℚ)
    (h : ∀ i < q.length, (lookupKey i st.index_to_key).isSome = true) :
    st.reportOutput q = (List.range q.length).map
      (fun i => ((lookupKey i st.index_to_key).getD 0, q.getD i 0)) := by
  unfold Pagerank.reportOutput
  rw [filterMap_lookup_eq_map st.index_to_key q.enum
    (fun x hx => h x.1 (fst_lt_of_mem_enum hx))]
  exact enum_map_eq_range_map (fun i => (lookupKey i st.index_to_key).getD 0) q

/-- In a well-formed state, every index below the cursor has a key. -/
lemma WF.lookup_index_isSome {st : Pagerank} (wf : WF st) {i : ℕ}
    (h : i < st.current_available_index) :
    (lookupKey i st.index_to_key).isSome = true := by
  apply lookupKey_isSome_of_mem
  rw [wf.inv_map]
  have : st.index_to_key.map Prod.fst = st.key_to_index.map Prod.snd := by
    rw [wf.inv_map]
    simp [Function.comp]
  rw [← wf.inv_map]
  rw [this, wf.snd_range]
  exact List.mem_range.mpr h

end ReportLemmas

section ShapeLemmas

lemma link_state_shape (st : Pagerank) (f t : ℕ) :
    ((st.link f t).state).in_links.length = st.in_links.length
    ∧ ((st.link f t).state).number_out_links.length = st.number_out_links.length
    ∧ ((st.link f t).state).capacity = st.capacity := by
  by_cases h1 : st.capacity < st.current_available_index
  · rw [link_err_first f t h1]
    exact ⟨rfl, rfl, rfl⟩
  · have h1' := not_lt.mp h1
    have hin1 := (afterKey_fields st f).1
    have hout1 := (afterKey_fields st f).2.1
    have hcap1 := (afterKey_fields st f).2.2
    by_cases h2 : st.capacity < (st.afterKey f).current_available_index
    · rw [link_err_second f t h1' h2]
      simp [LinkRes.state, hin1, hout1, hcap1]
    · have h2' := not_lt.mp h2
      rw [link_eq_of_guards f t h1' h2']
      have hin : ((st.afterKey f).afterKey t).in_links = st.in_links := by
        rw [(afterKey_fields (st.afterKey f) t).1, hin1]
      have hout : ((st.afterKey f).afterKey t).number_out_links
          = st.number_out_links := by
        rw [(afterKey_fields (st.afterKey f) t).2.1, hout1]
      have hcap : ((st.afterKey f).afterKey t).capacity = st.capacity := by
        rw [(afterKey_fields (st.afterKey f) t).2.2, hcap1]
      by_cases h3 : (st.afterKey f).idxOf t
          < ((st.afterKey f).afterKey t).in_links.length
      · by_cases h4 : st.idxOf f
            < ((st.afterKey f).afterKey t).number_out_links.length
        · rw [linkWithIndices_ok _ _ h3 h4]
          simp [LinkRes.state, hin, hout, hcap]
        · rw [linkWithIndices_oob_from _ _ h3 h4]
          simp [LinkRes.state, hin, hout, hcap]
      · rw [linkWithIndices_oob_to _ _ h3]
        simp [LinkRes.state, hin, hout, hcap]

lemma runLinks_shape : ∀ (ls : List (ℕ × ℕ)) (st : Pagerank),
    (runLinks st ls).in_links.length = st.in_links.length
    ∧ (runLinks st ls).number_out_links.length = st.number_out_links.length
    ∧ (runLinks st ls).capacity = st.capacity
  | [], st => ⟨rfl, rfl, rfl⟩
  | c :: rest, st => by
    have hshape := link_state_shape st c.1 c.2
    cases hres : st.link c.1 c.2 with
    | ok st' =>
      rw [hres] at hshape
      have ih := runLinks_shape rest st'
      rw [runLinks, hres]
      exact ⟨ih.1.trans hshape.1, ih.2.1.trans hshape.2.1, ih.2.2.trans hshape.2.2⟩
    | err m st' =>
      rw [hres] at hshape
      have ih := runLinks_shape rest st'
      rw [runLinks, hres]
      exact ⟨ih.1.trans hshape.1, ih.2.1.trans hshape.2.1, ih.2.2.trans hshape.2.2⟩
    | oob st' =>
      rw [hres] at hshape
      rw [runLinks, hres]
      exact hshape

lemma clear_eq_new {st : Pagerank}
    (h1 : st.in_links.length = st.capacity)
    (h2 : st.number_out_links.length = st.capacity) :
    st.clear = Pagerank.new st.capacity := by
  obtain ⟨il, nol, cur, kti, itk, cap⟩ := st
  simp only at h1 h2
  simp only [Pagerank.clear, Pagerank.new, Pagerank.mk.injEq]
  refine ⟨?_, ?_, trivial, trivial, trivial, trivial⟩
  · rw [List.map_const', h1]
  · rw [List.map_const', h2]

end ShapeLemmas

section SmallHelpers

lemma afterKey_of_none {st : Pagerank} {k : ℕ}
    (h : lookupKey k st.key_to_index = none) : st.afterKey k = st.registerKey k := by
  unfold Pagerank.afterKey
  rw [h]

lemma afterKey_of_some {st : Pagerank} {k i : ℕ}
    (h : lookupKey k st.key_to_index = some i) : st.afterKey k = st := by
  unfold Pagerank.afterKey
  rw [h]

lemma idxOf_of_none {st : Pagerank} {k : ℕ}
    (h : lookupKey k st.key_to_index = none) :
    st.idxOf k = st.current_available_index := by
  simp [Pagerank.idxOf, h]

lemma idxOf_of_some {st : Pagerank} {k i : ℕ}
    (h : lookupKey k st.key_to_index = some i) : st.idxOf k = i := by
  simp [Pagerank.idxOf, h]

lemma lookup_after_both_f (st : Pagerank) (f t : ℕ) :
    lookupKey f ((st.afterKey f).afterKey t).key_to_index = some (st.idxOf f) := by
  by_cases hft : t = f
  · subst hft
    have h := lookup_afterKey_self st t
    rw [afterKey_of_some h]
    exact h
  · rw [lookup_afterKey_other (st.afterKey f) hft]
    exact lookup_afterKey_self st f

end SmallHelpers

/-- A capacity-1 engine holding the single self-link `5 → 5`
(the smallest state whose cursor equals its capacity). -/
def stOne : Pagerank :=
  { in_links := [[0]]
    number_out_links := [1]
    current_available_index := 1
    key_to_index := [(5, 0)]
    index_to_key := [(0, 5)]
    capacity := 1 }

/-- A capacity-1 engine holding the single self-link `0 → 0`. -/
def sampleOne : Pagerank :=
  { in_links := [[0]]
    number_out_links := [1]
    current_available_index := 1
    key_to_index := [(0, 0)]
    index_to_key := [(0, 0)]
    capacity := 1 }

/-- The capacity-2 engine after the single call `link(7, 9)`. -/
def stTwo : Pagerank :=
  { in_links := [[], [0]]
    number_out_links := [1, 0]
    current_available_index := 2
    key_to_index := [(7, 0), (9, 1)]
    index_to_key := [(0, 7), (1, 9)]
    capacity := 2 }

/-- C1: for every non-empty graph, a power-iteration `step` of `rank`
computes, for every node `i`, the raw new score
`d * (Σ_{j ∈ in-links(i)} p[j]/outDegree[j] + danglingMassOverN) + (1-d)/n`
(where `danglingMassOverN` is the summed probability of the dangling nodes
divided by `n`), and the renormalization pass makes the resulting scores
sum to exactly `1`.  Hypotheses match `rank`'s use of `step`: a damping
factor in `(0,1)` and a nonnegative probability vector. -/
theorem claim_C1_step_formula_and_renormalization (st : Pagerank) (d : ℚ)
    (p : List ℚ) (hne : p ≠ []) (hd0 : 0 < d) (hd1 : d < 1)
    (hnn : ∀ x ∈ p, 0 ≤ x) :
    (∀ i < p.length,
      (st.stepRaw d ((1 - d) * (1 / (p.length : ℚ))) p
          st.calculateDanglingNodes).getD i 0
        = d * (((st.in_links.getD i []).map
              (fun j => p.getD j 0 / (st.number_out_links.getD j 0 : ℚ))).sum
            + (st.calculateDanglingNodes.map (fun node => p.getD node 0)).sum
              / (p.length : ℚ))
          + (1 - d) / (p.length : ℚ))
    ∧ (st.step d ((1 - d) * (1 / (p.length : ℚ))) p
        st.calculateDanglingNodes).sum = 1 := by
  have hn : 0 < p.length := List.length_pos.mpr hne
  have hnq : (0 : ℚ) < (p.length : ℚ) := by exact_mod_cast hn
  have htos : 0 < (1 - d) * (1 / (p.length : ℚ)) :=
    mul_pos (by linarith) (one_div_pos.mpr hnq)
  constructor
  · intro i hi
    rw [stepRaw_getD st d _ p st.calculateDanglingNodes hi, mul_one_div]
  · exact step_sum_one st p st.calculateDanglingNodes hne hd0 htos hnn

/-- Witness for C1 on the one-node self-loop graph with `d = 1/2`. -/
theorem claim_C1_witness :
    (sampleOne.step (1/2) ((1 - (1/2)) * (1 / (([(1:ℚ)]).length : ℚ))) [1]
      sampleOne.calculateDanglingNodes).sum = 1 :=
  (claim_C1_step_formula_and_renormalization sampleOne (1/2) [1]
    (by decide) (by norm_num) (by norm_num) (by decide)).2

/-- C5: a `link` call can fail with a `CapacityError` while resolving its
second endpoint yet leave its first endpoint registered with a consumed
index and no edge recorded; the engine keeps answering calls with
recoverable errors afterwards and a `clear` restores the fresh state. -/
theorem claim_C5_partial_failure :
    runOk (Pagerank.new 1) [(5, 5)] = some stOne
    ∧ stOne.link 6 7 = .err (capacityMessage 2 1) (stOne.registerKey 6)
    ∧ lookupKey 6 (stOne.registerKey 6).key_to_index = some 1
    ∧ (stOne.registerKey 6).current_available_index = 2
    ∧ (stOne.registerKey 6).in_links = stOne.in_links
    ∧ (stOne.registerKey 6).number_out_links = stOne.number_out_links
    ∧ (stOne.registerKey 6).link 5 5
        = .err (capacityMessage 2 1) (stOne.registerKey 6)
    ∧ Pagerank.clear (stOne.registerKey 6) = Pagerank.new 1 := by
  decide

/-- C6: `clear` returns any engine built by a sequence of `link` calls to
the exact just-constructed state `new(capacity)`, and replaying the very
same sequence of links after the `clear` reproduces an identical ranking
outcome. -/
theorem claim_C6_clear_resets_and_replay (C : ℕ) (ls : List (ℕ × ℕ))
    (d tol : ℚ) (fuel : ℕ) :
    Pagerank.clear (runLinks (Pagerank.new C) ls) = Pagerank.new C
    ∧ Pagerank.rank (runLinks (Pagerank.clear (runLinks (Pagerank.new C) ls)) ls)
        d tol fuel
      = Pagerank.rank (runLinks (Pagerank.new C) ls) d tol fuel := by
  have hshape := runLinks_shape ls (Pagerank.new C)
  have hcap : (runLinks (Pagerank.new C) ls).capacity = C := by
    rw [hshape.2.2]
    rfl
  have h1 : (runLinks (Pagerank.new C) ls).in_links.length
      = (runLinks (Pagerank.new C) ls).capacity := by
    rw [hshape.1, hcap]
    simp [Pagerank.new]
  have h2 : (runLinks (Pagerank.new C) ls).number_out_links.length
      = (runLinks (Pagerank.new C) ls).capacity := by
    rw [hshape.2.1, hcap]
    simp [Pagerank.new]
  have hclear := clear_eq_new h1 h2
  rw [hcap] at hclear
  exact ⟨hclear, by rw [hclear]⟩

/-- C7: a successful `link(from, to)` registers any unseen endpoint at the
next fresh index, appends `from`'s index to `to`'s reverse-adjacency list
and increments `from`'s out-degree by one — additively, so repeated links
keep growing both. -/
theorem claim_C7_link_success_effects (st st' : Pagerank) (f t : ℕ)
    (h : st.link f t = .ok st') :
    lookupKey f st'.key_to_index = some (st.idxOf f)
    ∧ lookupKey t st'.key_to_index = some ((st.afterKey f).idxOf t)
    ∧ (lookupKey f st.key_to_index = none →
        st.idxOf f = st.current_available_index)
    ∧ (lookupKey t (st.afterKey f).key_to_index = none →
        (st.afterKey f).idxOf t = (st.afterKey f).current_available_index)
    ∧ st'.in_links = st.in_links.set ((st.afterKey f).idxOf t)
        (st.in_links.getD ((st.afterKey f).idxOf t) [] ++ [st.idxOf f])
    ∧ st'.number_out_links = st.number_out_links.set (st.idxOf f)
        (st.number_out_links.getD (st.idxOf f) 0 + 1)
    ∧ (st'.in_links.getD ((st.afterKey f).idxOf t) []).length
        = (st.in_links.getD ((st.afterKey f).idxOf t) []).length + 1
    ∧ st'.number_out_links.getD (st.idxOf f) 0
        = st.number_out_links.getD (st.idxOf f) 0 + 1
    ∧ st'.capacity = st.capacity := by
  obtain ⟨h1, h2, h3, h4, h5⟩ := link_ok_elim h
  subst h5
  refine ⟨?_, ?_, fun hl => idxOf_of_none hl, fun hl => idxOf_of_none hl,
    rfl, rfl, ?_, ?_, ?_⟩
  · exact lookup_after_both_f st f t
  · exact lookup_afterKey_self (st.afterKey f) t
  · rw [getD_set_eq _ _ _ _ h3]
    simp
  · rw [getD_set_eq _ _ _ _ h4]
  · rw [(afterKey_fields (st.afterKey f) t).2.2, (afterKey_fields st f).2.2]

/-- Witness for C7 at the concrete call `link(7, 9)` on a fresh
capacity-2 engine. -/
theorem claim_C7_witness :
    lookupKey 7 stTwo.key_to_index = some ((Pagerank.new 2).idxOf 7)
    ∧ lookupKey 9 stTwo.key_to_index = some (((Pagerank.new 2).afterKey 7).idxOf 9)
    ∧ (stTwo.in_links.getD (((Pagerank.new 2).afterKey 7).idxOf 9) []).length
        = ((Pagerank.new 2).in_links.getD
            (((Pagerank.new 2).afterKey 7).idxOf 9) []).length + 1
    ∧ stTwo.number_out_links.getD ((Pagerank.new 2).idxOf 7) 0
        = (Pagerank.new 2).number_out_links.getD ((Pagerank.new 2).idxOf 7) 0 + 1 := by
  have h := claim_C7_link_success_effects (Pagerank.new 2) stTwo 7 9 (by decide)
  exact ⟨h.1, h.2.1, h.2.2.2.2.2.2.1, h.2.2.2.2.2.2.2.1⟩

/-- C9 (amended): at cursor = capacity, the guard `cursor > capacity`
passes for every resolution, so no `CapacityError` comes from the guard
itself; a call whose *second* endpoint is the over-capacity fresh
identifier panics out of bounds instead of erroring, while a call whose
*first* endpoint is fresh pushes the cursor past the capacity and then
returns a `CapacityError` from resolving the second endpoint. -/
theorem claim_C9_capacity_boundary (st : Pagerank)
    (hcur : st.current_available_index = st.capacity)
    (hlen : st.in_links.length = st.capacity) :
    (∀ f t, lookupKey f st.key_to_index = none →
      st.link f t = .err (capacityMessage (st.capacity + 1) st.capacity)
        (st.registerKey f))
    ∧ (∀ f t fi, lookupKey f st.key_to_index = some fi →
        lookupKey t st.key_to_index = none →
        st.link f t = .oob (st.registerKey t))
    ∧ (∀ k, st.keyAsArrayIndex k = .ok (st.idxOf k, st.afterKey k))
    ∧ (∀ (st2 : Pagerank) (k : ℕ),
        st2.capacity < st2.current_available_index →
        st2.keyAsArrayIndex k
          = .error (capacityMessage st2.current_available_index st2.capacity)) := by
  have hle : st.current_available_index ≤ st.capacity := le_of_eq hcur
  refine ⟨?_, ?_, fun k => keyAsArrayIndex_ok k hle,
    fun st2 k h => keyAsArrayIndex_over k h⟩
  · intro f t hf
    have hreg : st.afterKey f = st.registerKey f := afterKey_of_none hf
    have hcur1 : (st.afterKey f).current_available_index = st.capacity + 1 := by
      rw [hreg, (registerKey_fields st f).2.2.2.1, hcur]
    have h2 : st.capacity < (st.afterKey f).current_available_index := by
      rw [hcur1]
      exact Nat.lt_succ_self _
    rw [link_err_second f t hle h2, hcur1, hreg]
  · intro f t fi hf ht
    have hnof : st.afterKey f = st := afterKey_of_some hf
    have h2 : (st.afterKey f).current_available_index ≤ st.capacity := by
      rw [hnof]
      exact hle
    rw [link_eq_of_guards f t hle h2, hnof, afterKey_of_none ht]
    have hti : st.idxOf t = st.capacity := by
      rw [idxOf_of_none ht, hcur]
    apply linkWithIndices_oob_to
    rw [(registerKey_fields st t).1, hlen, hti]
    exact lt_irrefl _

/-- Witness for C9 on the capacity-1 engine `stOne`. -/
theorem claim_C9_witness :
    stOne.link 6 7 = .err (capacityMessage (stOne.capacity + 1) stOne.capacity)
      (stOne.registerKey 6)
    ∧ stOne.link 5 6 = .oob (stOne.registerKey 6)
    ∧ stOne.keyAsArrayIndex 8 = .ok (stOne.idxOf 8, stOne.afterKey 8)
    ∧ (stOne.registerKey 6).keyAsArrayIndex 3
        = .error (capacityMessage (stOne.registerKey 6).current_available_index
            (stOne.registerKey 6).capacity) := by
  have h := claim_C9_capacity_boundary stOne rfl rfl
  exact ⟨h.1 6 7 (by decide), h.2.1 5 6 0 (by decide) (by decide), h.2.2.1 8,
    h.2.2.2 (stOne.registerKey 6) 3 (by decide)⟩

/-- Counterexample to C9 as stated: at cursor = capacity, the call
`link(6, 7)` on `stOne` introduces the fresh identifier `6` and *does*
return a `CapacityError` (raised while resolving the second endpoint),
contradicting "a link call that introduces one more new identifier does
not return a CapacityError". -/
theorem claim_C9_counterexample :
    stOne.current_available_index = stOne.capacity
    ∧ lookupKey 6 stOne.key_to_index = none
    ∧ stOne.link 6 7 = .err (capacityMessage 2 1) (stOne.registerKey 6) := by
  decide

section ErrorLemmas

lemma linkWithIndices_ne_err (st : Pagerank) (fi ti : ℕ) (m : String)
    (st2 : Pagerank) : st.linkWithIndices fi ti ≠ .err m st2 := by
  by_cases h3 : ti < st.in_links.length
  · by_cases h4 : fi < st.number_out_links.length
    · rw [linkWithIndices_ok _ _ h3 h4]
      simp
    · rw [linkWithIndices_oob_from _ _ h3 h4]
      simp
  · rw [linkWithIndices_oob_to _ _ h3]
    simp

/-- Every `CapacityError` returned by `link` carries the message built
from the cursor of the state it leaves behind and the capacity, and that
cursor strictly exceeds the capacity. -/
lemma link_err_elim {st st' : Pagerank} {f t : ℕ} {m : String}
    (h : st.link f t = .err m st') :
    st.capacity < st'.current_available_index
    ∧ m = capacityMessage st'.current_available_index st.capacity := by
  by_cases h1 : st.capacity < st.current_available_index
  · rw [link_err_first f t h1] at h
    simp only [LinkRes.err.injEq] at h
    obtain ⟨hm, hst⟩ := h
    subst hst
    exact ⟨h1, hm.symm⟩
  · have h1' := not_lt.mp h1
    by_cases h2 : st.capacity < (st.afterKey f).current_available_index
    · rw [link_err_second f t h1' h2] at h
      simp only [LinkRes.err.injEq] at h
      obtain ⟨hm, hst⟩ := h
      subst hst
      exact ⟨h2, hm.symm⟩
    · rw [link_eq_of_guards f t h1' (not_lt.mp h2)] at h
      exact absurd h (linkWithIndices_ne_err _ _ _ _ _)

lemma capacityMessage_contains (c cap : ℕ) :
    (toString c).data <:+: (capacityMessage c cap).data
    ∧ (toString cap).data <:+: (capacityMessage c cap).data := by
  constructor
  · refine ⟨("Exceeded the capacity of nodes, current available index: ").data,
      (", capacity: " ++ toString cap).data, ?_⟩
    simp [capacityMessage, String.data_append, List.append_assoc]
  · refine ⟨("Exceeded the capacity of nodes, current available index: "
        ++ toString c ++ ", capacity: ").data, [], ?_⟩
    simp [capacityMessage, String.data_append, List.append_assoc]

/-- Field-wise form of `link_ok_elim` for the two backing arrays. -/
lemma link_ok_fields {st st' : Pagerank} {f t : ℕ} (h : st.link f t = .ok st') :
    st'.in_links = st.in_links.set ((st.afterKey f).idxOf t)
      (st.in_links.getD ((st.afterKey f).idxOf t) [] ++ [st.idxOf f])
    ∧ st'.number_out_links = st.number_out_links.set (st.idxOf f)
        (st.number_out_links.getD (st.idxOf f) 0 + 1)
    ∧ (st.afterKey f).idxOf t < st.in_links.length
    ∧ st.idxOf f < st.number_out_links.length := by
  obtain ⟨h1, h2, h3, h4, h5⟩ := link_ok_elim h
  subst h5
  exact ⟨rfl, rfl, h3, h4⟩

end ErrorLemmas

/-- C2 (amended): inserting at most `capacity` distinct identifiers never
fails; inserting more than `capacity` distinct identifiers makes the run
fail — but the failing call either returns a `CapacityError` or panics on
out-of-bounds indexing, so an error *return* is not guaranteed (see the
counterexample); whenever `link` does return a `CapacityError`, its
message contains the cursor value and the capacity. -/
theorem claim_C2_capacity_invariant :
    (∀ (C : ℕ) (ls : List (ℕ × ℕ)), distinctIdCount ls ≤ C →
      (runOk (Pagerank.new C) ls).isSome = true)
    ∧ (∀ (C : ℕ) (ls : List (ℕ × ℕ)), C < distinctIdCount ls →
      runOk (Pagerank.new C) ls = none)
    ∧ (∀ (st st' : Pagerank) (f t : ℕ) (m : String), st.link f t = .err m st' →
        st.capacity < st'.current_available_index
        ∧ m = capacityMessage st'.current_available_index st.capacity
        ∧ (toString st'.current_available_index).data <:+: m.data
        ∧ (toString st.capacity).data <:+: m.data) := by
  refine ⟨?_, ?_, ?_⟩
  · intro C ls h
    apply runOk_total ls (Pagerank.new C) ((linkIds ls).dedup) (WF_new C)
      (List.nodup_dedup _)
    · intro a ha
      exact absurd ha (by simp [keysOf, Pagerank.new])
    · exact fun a ha => List.mem_dedup.mpr ha
    · exact h
  · intro C ls h
    cases hr : runOk (Pagerank.new C) ls with
    | none => rfl
    | some st' =>
      exfalso
      obtain ⟨wf', _, hids, hcap⟩ := runOk_invariant ls (Pagerank.new C) st'
        (WF_new C) hr
      have hsub : (linkIds ls).dedup ⊆ keysOf st' :=
        fun a ha => hids (List.mem_dedup.mp ha)
      have hlen := ((List.nodup_dedup (linkIds ls)).subperm hsub).length_le
      have hkeys : (keysOf st').length = st'.current_available_index := wf'.keys_len
      have hle : st'.current_available_index ≤ st'.capacity := wf'.le_cap
      have hcapC : st'.capacity = C := by
        rw [hcap]
        rfl
    -- distinctIdCount ls ≤ C, contradiction
      have : distinctIdCount ls ≤ C := by
        unfold distinctIdCount
        omega
      omega
  · intro st st' f t m hm
    obtain ⟨hlt, hmsg⟩ := link_err_elim hm
    refine ⟨hlt, hmsg, ?_, ?_⟩
    · rw [hmsg]
      exact (capacityMessage_contains _ _).1
    · rw [hmsg]
      exact (capacityMessage_contains _ _).2

/-- Witness for C2: a within-capacity run succeeds, an over-capacity run
fails, and a concrete `CapacityError` message carries cursor and capacity. -/
theorem claim_C2_witness :
    (runOk (Pagerank.new 2) [(1, 2)]).isSome = true
    ∧ runOk (Pagerank.new 1) [(1, 2), (3, 4)] = none
    ∧ stOne.capacity < (stOne.registerKey 6).current_available_index
    ∧ capacityMessage 2 1
        = capacityMessage (stOne.registerKey 6).current_available_index
            stOne.capacity := by
  obtain ⟨c1, c2, c3⟩ := claim_C2_capacity_invariant
  have h3 := c3 stOne (stOne.registerKey 6) 6 7 (capacityMessage 2 1) (by decide)
  exact ⟨c1 2 [(1, 2)] (by decide), c2 1 [(1, 2), (3, 4)] (by decide),
    h3.1, h3.2.1⟩

/-- Counterexample to C2 as stated: on a capacity-1 engine, the sequence
`[(1,1), (1,2)]` introduces two distinct identifiers (more than the
capacity), yet no call of the run returns a `CapacityError` — the second
call panics with an out-of-bounds index instead, aborting the run. -/
theorem claim_C2_counterexample :
    1 < distinctIdCount [(1, 1), (1, 2)]
    ∧ runAnyErr (Pagerank.new 1) [(1, 1), (1, 2)] = false := by
  decide

/-- C3 (amended): for every graph with at least one registered node and
every tolerance strictly below the initial sentinel value `2`, `rank`
iterates exactly while the L1 distance between consecutive probability
vectors exceeds the tolerance, stops as soon as it is within tolerance,
and the first iteration always executes.  (For `tolerance ≥ 2` the
sentinel fails the loop test at once and zero iterations run — see the
counterexample.) -/
theorem claim_C3_convergence_loop (st st' : Pagerank) (d tol : ℚ)
    (fuel k : ℕ) (out : List (ℕ × ℚ))
    (hn : 1 ≤ st.key_to_index.length) (htol : tol < 2)
    (h : st.rank d tol fuel = some (st', out, k)) :
    1 ≤ k
    ∧ st.changeVal d ((1 - d) * (1 / (st.key_to_index.length : ℚ)))
        st.calculateDanglingNodes
        (List.replicate st.key_to_index.length
          (1 / (st.key_to_index.length : ℚ))) k ≤ tol
    ∧ ∀ j < k, tol <
        st.changeVal d ((1 - d) * (1 / (st.key_to_index.length : ℚ)))
          st.calculateDanglingNodes
          (List.replicate st.key_to_index.length
            (1 / (st.key_to_index.length : ℚ))) j := by
  obtain ⟨-, q, hloop, -⟩ := rank_elim h
  obtain ⟨hq, hch, hall⟩ := rankLoop_char st d
    ((1 - d) * (1 / (st.key_to_index.length : ℚ))) tol
    st.calculateDanglingNodes
    (List.replicate st.key_to_index.length (1 / (st.key_to_index.length : ℚ)))
    fuel 0 k _ 2 q rfl rfl hloop
  refine ⟨?_, by simpa using hch, fun j hj => by simpa using hall j (Nat.zero_le _) (by omega)⟩
  by_contra hk
  have hk0 : k = 0 := by omega
  subst hk0
  have h2 : (2 : ℚ) ≤ tol := by simpa using hch
  linarith

/-- Witness for C3 on the one-node self-loop graph with tolerance `1`. -/
theorem claim_C3_witness :
    (1 : ℕ) ≤ 1
    ∧ sampleOne.changeVal (1/2)
        ((1 - (1/2)) * (1 / (sampleOne.key_to_index.length : ℚ)))
        sampleOne.calculateDanglingNodes
        (List.replicate sampleOne.key_to_index.length
          (1 / (sampleOne.key_to_index.length : ℚ))) 1 ≤ 1
    ∧ (1 : ℚ) < sampleOne.changeVal (1/2)
        ((1 - (1/2)) * (1 / (sampleOne.key_to_index.length : ℚ)))
        sampleOne.calculateDanglingNodes
        (List.replicate sampleOne.key_to_index.length
          (1 / (sampleOne.key_to_index.length : ℚ))) 0 := by
  have h := claim_C3_convergence_loop sampleOne sampleOne (1/2) 1 3 1
    [(0, 1)] (by decide) (by norm_num) (by with_unfolding_all decide)
  exact ⟨h.1, h.2.1, h.2.2 0 (by decide)⟩

/-- Counterexample to C3 as stated: with tolerance `2` (equal to the
initial sentinel) on a one-node graph, the loop test `change > tolerance`
fails immediately and `rank` reports results after zero iterations, so
the first iteration does not always execute. -/
theorem claim_C3_counterexample :
    1 ≤ sampleOne.key_to_index.length
    ∧ sampleOne.rank (1/2) 2 5 = some (sampleOne, [(0, 1)], 0) := by
  with_unfolding_all decide

/-- C4 (amended): on an engine with no registered identifiers, `rank`
invokes the callback zero times and no division-by-zero panic occurs; it
does not literally "perform no iteration": for `0 ≤ tolerance < 2` the
loop body runs exactly once over the empty vectors (with no observable
effect) before the change value `0` stops it, and only for
`tolerance ≥ 2` does the sentinel stop the loop before any iteration. -/
theorem claim_C4_empty_graph (st : Pagerank) (d tol : ℚ) (fuel : ℕ)
    (hempty : st.key_to_index = []) (htol : 0 ≤ tol) (hfuel : 1 ≤ fuel) :
    st.rank d tol fuel = some (st, [], if tol < 2 then 1 else 0) := by
  obtain ⟨fuel', rfl⟩ : ∃ fuel'', fuel = fuel'' + 1 := ⟨fuel - 1, by omega⟩
  have key : st.rank d tol (fuel' + 1)
      = (match st.rankLoop d ((1 - d) * (1 / ((0 : ℕ) : ℚ))) tol
          st.calculateDanglingNodes (fuel' + 1) ([] : List ℚ) 2 with
        | none => none
        | some (q, iters) => some (st, st.reportOutput q, iters)) := by
    show (match st.rankLoop d ((1 - d) * (1 / (st.key_to_index.length : ℚ))) tol
        st.calculateDanglingNodes (fuel' + 1)
        (List.replicate st.key_to_index.length
          (1 / (st.key_to_index.length : ℚ))) 2 with
      | none => none
      | some (q, iters) => some (st, st.reportOutput q, iters)) = _
    rw [hempty]
    simp
  rw [key]
  have base : ∀ fu, st.rankLoop d ((1 - d) * (1 / ((0 : ℕ) : ℚ))) tol
      st.calculateDanglingNodes fu ([] : List ℚ) 0 = some ([], 0) := by
    intro fu
    cases fu with
    | zero => simp [Pagerank.rankLoop, not_lt.mpr htol]
    | succ n => simp [Pagerank.rankLoop, not_lt.mpr htol]
  have hloop : st.rankLoop d ((1 - d) * (1 / ((0 : ℕ) : ℚ))) tol
      st.calculateDanglingNodes (fuel' + 1) ([] : List ℚ) 2
      = some ([], if tol < 2 then 1 else 0) := by
    rw [Pagerank.rankLoop]
    by_cases h2 : tol < 2
    · rw [if_pos h2, if_pos h2]
      have hstep : st.step d ((1 - d) * (1 / ((0 : ℕ) : ℚ))) []
          st.calculateDanglingNodes = [] := rfl
      have hch : Pagerank.calculateChange ([] : List ℚ) ([] : List ℚ) = 0 := rfl
      simp only [hstep, hch, base fuel']
    · rw [if_neg h2, if_neg h2]
  rw [hloop]
  rfl

/-- Witness for C4 on a fresh capacity-1 engine with tolerance `1`. -/
theorem claim_C4_witness :
    (Pagerank.new 1).rank (17/20) 1 1
      = some (Pagerank.new 1, [], if (1 : ℚ) < 2 then 1 else 0) :=
  claim_C4_empty_graph (Pagerank.new 1) (17/20) 1 1 rfl (by norm_num) (by norm_num)

/-- Counterexample to C4 as stated: on an empty engine with an ordinary
tolerance the callback is indeed never invoked, but one loop iteration
does execute, contradicting "performing no iteration". -/
theorem claim_C4_counterexample :
    (Pagerank.new 1).rank (17/20) (1/1000000) 5 = some (Pagerank.new 1, [], 1)
    ∧ (1 : ℕ) ≠ 0 := by
  with_unfolding_all decide

/-- C8: `rank` leaves the engine state unchanged (the returned state is
the input state), and on convergence the callback is invoked exactly once
per registered node, in ascending internal-index order, with the original
identifier and that node's final score. -/
theorem claim_C8_rank_pure_and_output (st st' : Pagerank) (d tol : ℚ)
    (fuel k : ℕ) (out : List (ℕ × ℚ)) (hst : Reachable st)
    (h : st.rank d tol fuel = some (st', out, k)) :
    st' = st
    ∧ out = (List.range st.key_to_index.length).map (fun i =>
        ((lookupKey i st.index_to_key).getD 0,
          (st.pIter d ((1 - d) * (1 / (st.key_to_index.length : ℚ)))
            st.calculateDanglingNodes
            (List.replicate st.key_to_index.length
              (1 / (st.key_to_index.length : ℚ))) k).getD i 0))
    ∧ ∀ i < st.key_to_index.length,
        (lookupKey i st.index_to_key).isSome = true := by
  have wf := reachable_WF hst
  obtain ⟨hst', q, hloop, hout⟩ := rank_elim h
  obtain ⟨hq, -, -⟩ := rankLoop_char st d
    ((1 - d) * (1 / (st.key_to_index.length : ℚ))) tol
    st.calculateDanglingNodes
    (List.replicate st.key_to_index.length (1 / (st.key_to_index.length : ℚ)))
    fuel 0 k _ 2 q rfl rfl hloop
  rw [Nat.zero_add] at hq
  have hqlen : q.length = st.key_to_index.length := by
    rw [hq, pIter_length]
    simp
  have hsome : ∀ i < st.key_to_index.length,
      (lookupKey i st.index_to_key).isSome = true := by
    intro i hi
    apply wf.lookup_index_isSome
    rw [← wf.key_len]
    exact hi
  refine ⟨hst', ?_, hsome⟩
  rw [hout, reportOutput_eq st q (fun i hi => hsome i (hqlen ▸ hi)), hqlen, hq]

/-- Witness for C8 on the one-node self-loop graph. -/
theorem claim_C8_witness :
    [((0 : ℕ), (1 : ℚ))] = (List.range sampleOne.key_to_index.length).map (fun i =>
        ((lookupKey i sampleOne.index_to_key).getD 0,
          (sampleOne.pIter (1/2)
            ((1 - (1/2)) * (1 / (sampleOne.key_to_index.length : ℚ)))
            sampleOne.calculateDanglingNodes
            (List.replicate sampleOne.key_to_index.length
              (1 / (sampleOne.key_to_index.length : ℚ))) 1).getD i 0))
    ∧ (lookupKey 0 sampleOne.index_to_key).isSome = true := by
  have h := claim_C8_rank_pure_and_output sampleOne sampleOne (1/2) 1 3 1
    [(0, 1)]
    (Reachable.step (Reachable.init 1)
      (by decide : (Pagerank.new 1).link 0 0 = .ok sampleOne))
    (by with_unfolding_all decide)
  exact ⟨h.2.1, h.2.2 0 (by decide)⟩

/-- C10: in every state reachable by successful `link` and `clear` calls,
every source index recorded in any reverse-adjacency list has out-degree
at least one, so the per-node division `p[j] / number_out_links[j]` inside
a `rank` step never has a zero divisor. -/
theorem claim_C10_in_link_outdegree_positive (st : Pagerank)
    (hst : Reachable st) :
    ∀ i j, j ∈ st.in_links.getD i [] →
      1 ≤ st.number_out_links.getD j 0
      ∧ ((st.number_out_links.getD j 0 : ℚ) ≠ 0) := by
  have main : ∀ i j, j ∈ st.in_links.getD i [] →
      1 ≤ st.number_out_links.getD j 0 := by
    induction hst with
    | init c =>
      intro i j hj
      rw [show (Pagerank.new c).in_links = List.replicate c [] from rfl,
        getD_replicate] at hj
      exact absurd hj (List.not_mem_nil j)
    | step hr hlink ih =>
      rename_i st1 st1' f t
      obtain ⟨hin, hout, h3, h4⟩ := link_ok_fields hlink
      intro i j hj
      rw [hin] at hj
      rw [hout]
      have hmono : ∀ j', 1 ≤ st1.number_out_links.getD j' 0 →
          1 ≤ (st1.number_out_links.set (st1.idxOf f)
            (st1.number_out_links.getD (st1.idxOf f) 0 + 1)).getD j' 0 := by
        intro j' hb
        by_cases hf : st1.idxOf f = j'
        · subst hf
          rw [getD_set_eq _ _ _ _ h4]
          omega
        · rw [getD_set_ne _ _ _ hf]
          exact hb
      by_cases hit : (st1.afterKey f).idxOf t = i
      · subst hit
        rw [getD_set_eq _ _ _ _ h3] at hj
        rcases List.mem_append.mp hj with hjo | hjf
        · exact hmono j (ih _ j hjo)
        · rw [List.mem_singleton] at hjf
          subst hjf
          rw [getD_set_eq _ _ _ _ h4]
          omega
      · rw [getD_set_ne _ _ _ hit] at hj
        exact hmono j (ih i j hj)
    | reset hr ih =>
      rename_i st2
      intro i j hj
      rw [show (Pagerank.clear st2).in_links
          = st2.in_links.map (fun _ => ([] : List ℕ)) from rfl,
        getD_map_const] at hj
      exact absurd hj (List.not_mem_nil j)
  intro i j hj
  have h1 := main i j hj
  exact ⟨h1, Nat.cast_ne_zero.mpr (by omega)⟩

/-- Witness for C10 on the engine holding the single link `7 → 9`. -/
theorem claim_C10_witness :
    1 ≤ stTwo.number_out_links.getD 0 0
    ∧ ((stTwo.number_out_links.getD 0 0 : ℚ) ≠ 0) := by
  have h := claim_C10_in_link_outdegree_positive stTwo
    (Reachable.step (Reachable.init 2)
      (by decide : (Pagerank.new 2).link 7 9 = .ok stTwo))
  exact h 1 0 (by decide)
